import Mathlib

/-!
Verification of `scripts/find_function_dupes.py` (duplicate-function detector).

Python strings are modelled as `List Char`; indices are `Nat`.  Every loop of
the script is translated to a structurally recursive Lean function (loops that
advance an index use either the remaining suffix or an ample fuel bound, noted
at each definition), so that all definitions evaluate by kernel reduction.
-/

/-- Characters for which Python's `str.isspace()` (and hence `str.strip()`)
returns true: the ASCII whitespace and the Unicode whitespace code points. -/
def isPySpace (c : Char) : Bool :=
  c.toNat ∈ ([9, 10, 11, 12, 13, 28, 29, 30, 31, 32, 133, 160,
              5760, 8192, 8193, 8194, 8195, 8196, 8197, 8198, 8199, 8200,
              8201, 8202, 8232, 8233, 8239, 8287, 12288] : List Nat)

/-- Core of `re.sub(r"\\s+", " ", body)` from line 95 of the script.  The
pattern is a *raw* Python string, so as a regular expression it is an escaped
backslash followed by `s+`: it matches one literal backslash followed by a
maximal nonempty run of `s` characters, and each such match is replaced by a
single space.  The scan is left to right and non-overlapping, exactly as
`re.sub` performs it.  The Boolean flag is true while the `s`-run of a match
is still being consumed. -/
def subBSGo : Bool → List Char → List Char
  | _, [] => []
  | fl, c :: rest =>
      if fl = true ∧ c = 's' then subBSGo true rest
      else if c = '\\' ∧ rest.head? = some 's' then ' ' :: subBSGo true rest
      else c :: subBSGo false rest

/-- The substitution `re.sub(r"\\s+", " ", body)` of line 95. -/
def subBS (l : List Char) : List Char := subBSGo false l

/-- Python `str.strip()`: drop leading and trailing whitespace. -/
def pyStrip (l : List Char) : List Char :=
  (((l.dropWhile isPySpace).reverse).dropWhile isPySpace).reverse

/-- Line 95 of the script:
`body_clean = re.sub(r"\\s+", " ", body).strip()`. -/
def pyClean (l : List Char) : List Char := pyStrip (subBS l)

/-- The normalization the specification describes (§4.3): replace every
maximal run of whitespace characters by one space, then strip.  Stated for
comparison with `pyClean`, the normalization the code actually performs. -/
def specNormGo : Bool → List Char → List Char
  | ws, c :: rest =>
      if isPySpace c then
        if ws then specNormGo true rest else ' ' :: specNormGo true rest
      else c :: specNormGo false rest
  | _, [] => []

/-- Spec-described normalizer: collapse whitespace runs, then strip. -/
def specNormalize (l : List Char) : List Char := pyStrip (specNormGo false l)

/-!
Line 64 of the script:

  `FUNC_RE = re.compile(r"(?:pub\\s+)?fn\\s+(\\w+)\\s*\\([^)]*\\)\\s*\\{")`

The pattern is a raw string, so each `\\` is an escaped backslash matching one
literal backslash character, and what was evidently meant as `\s` / `\w`
character classes are instead the two-character sequences "backslash, then a
run of `s` (resp. `w`)".  Parsed as a regular expression the pattern is the
concatenation

  optional("pub", BS, s+), "f", "n", BS, s+, group1(BS, w+),
  BS, s*, BS, group2(nonRParen*, BS), BS, s*, BS, "{"

where BS is one backslash, `s+`/`s*`/`w+` are runs of the literal letters
`s` and `w`, and nonRParen is any character except `)`.  All runs are greedy;
only the `nonRParen*` item ever needs backtracking, because every run of a
fixed letter is followed by a different required character.  The functions
below implement exactly Python's leftmost, greedy, non-overlapping matching
for this fixed pattern (validated against `re.finditer` behaviour). -/

/-- Length of the maximal run of character `c` in `l`. -/
def runLen (c : Char) : List Char → Nat
  | x :: xs => if x = c then runLen c xs + 1 else 0
  | [] => 0

/-- Length of the maximal run of characters other than `)` in `l`. -/
def runLenNotRParen : List Char → Nat
  | x :: xs => if x = ')' then 0 else runLenNotRParen xs + 1
  | [] => 0

/-- Index just past the maximal run of `c` in `s` starting at index `i`. -/
def runEnd (s : List Char) (c : Char) (i : Nat) : Nat := i + runLen c (s.drop i)

/-- Attempt the fixed tail `BS BS s* BS {` of the pattern at index `t`;
returns the index just past the `{` on success. -/
def tailCheck (s : List Char) (t : Nat) : Option Nat :=
  if s.get? t = some '\\' ∧ s.get? (t + 1) = some '\\' ∧
      s.get? (runEnd s 's' (t + 2)) = some '\\' ∧
      s.get? (runEnd s 's' (t + 2) + 1) = some '{' then
    some (runEnd s 's' (t + 2) + 2)
  else none

/-- Backtracking for the greedy `nonRParen*` item: try the split points
`p + d`, `p + d - 1`, …, `p` in order (longest first, as a greedy `*` does)
until the tail matches. -/
def tryBackD (s : List Char) (p : Nat) : Nat → Option Nat
  | 0 => tailCheck s p
  | d + 1 =>
      match tailCheck s (p + d + 1) with
      | some e => some e
      | none => tryBackD s p d

/-- Match the pattern without its optional `pub` prefix at index `i`:
`fn BS s+ (BS w+) BS s* BS nonRParen* BS BS s* BS {`.  Returns the index just
past the match and the text of capture group 1 (the "function name"). -/
def matchCore (s : List Char) (i : Nat) : Option (Nat × List Char) :=
  if s.get? i = some 'f' ∧ s.get? (i + 1) = some 'n' ∧ s.get? (i + 2) = some '\\' then
    let j := runEnd s 's' (i + 3)
    if j = i + 3 then none
    else if s.get? j = some '\\' then
      let w := runEnd s 'w' (j + 1)
      if w = j + 1 then none
      else
        let g1 := (s.take w).drop j
        if s.get? w = some '\\' then
          let t := runEnd s 's' (w + 1)
          if s.get? t = some '\\' then
            let p := t + 1
            let rmax := p + runLenNotRParen (s.drop p)
            match tryBackD s p (rmax - p) with
            | some e => some (e, g1)
            | none => none
          else none
        else none
    else none
  else none

/-- Match the full pattern at index `i`, first trying the optional
`(?:pub BS s+)?` prefix (greedy), falling back to a match without it - exactly
Python's backtracking order for the optional group. -/
def matchAt (s : List Char) (i : Nat) : Option (Nat × List Char) :=
  if s.get? i = some 'p' ∧ s.get? (i + 1) = some 'u' ∧ s.get? (i + 2) = some 'b' ∧
      s.get? (i + 3) = some '\\' then
    let k := runEnd s 's' (i + 4)
    if k = i + 4 then matchCore s i
    else
      match matchCore s k with
      | some r => some r
      | none => matchCore s i
  else matchCore s i

/-- Model of `re.finditer` for the pattern: scan left to right, at each index try a
match; on success record `(start, end, group1)` and resume at the match end
(every match here is nonempty, indeed at least 8 characters long, so
`max (i + 1) e = e`; the `max` only serves the structural fuel bound).  The
fuel starts at `s.length + 1`, enough because the scan index strictly
increases at every step. -/
def finditerF (s : List Char) : Nat → Nat → List (Nat × Nat × List Char)
  | 0, _ => []
  | fuel + 1, i =>
      if i < s.length then
        match matchAt s i with
        | some (e, g) => (i, e, g) :: finditerF s fuel (max (i + 1) e)
        | none => finditerF s fuel (i + 1)
      else []

/-- All matches of `FUNC_RE` in `s`, as `(start, end, group1)` triples. -/
def FUNC_RE_finditer (s : List Char) : List (Nat × Nat × List Char) :=
  finditerF s (s.length + 1) 0

/-!
Lines 85-92 of `extract_functions`: the brace-depth scan

    i = m.end()
    depth = 1
    while i < len(source) and depth:
        if source[i] == '{': depth += 1
        elif source[i] == '}': depth -= 1
        i += 1

The loop advances `i` by one each iteration, so `s.length + 1` fuel is ample;
the fuel-exhausted case is unreachable from the wrapper below.  The result is
the final index together with whether the loop stopped because the depth
reached zero (as opposed to reaching end of input). -/
def scanF (s : List Char) : Nat → Nat → Nat → Nat × Bool
  | 0, i, depth => (i, depth = 0)
  | fuel + 1, i, depth =>
      if i < s.length ∧ depth ≠ 0 then
        let c := s.getD i ' '
        let d := if c = '{' then depth + 1 else if c = '}' then depth - 1 else depth
        scanF s fuel (i + 1) d
      else (i, depth = 0)

/-- Final index of the brace scan started at index `i` with depth 1. -/
def scanEnd (s : List Char) (i : Nat) : Nat := (scanF s (s.length + 1) i 1).1

/-- Whether the brace scan started at index `i` stopped because the depth
returned to zero (`false` means it ran to end of input with depth still
nonzero). -/
def scanHitsZero (s : List Char) (i : Nat) : Bool := (scanF s (s.length + 1) i 1).2

/-- Python slice `s[st:en]`. -/
def pySlice (s : List Char) (st en : Nat) : List Char := (s.take en).drop st

/-- Lines 79-97 of the script, `extract_functions(source)`: for every match of
`FUNC_RE`, run the brace-depth scan from the match end, take
`body = source[start:i]`, clean it with `re.sub(r"\\s+", " ", body).strip()`,
and return the list of `(name, body_clean)` pairs. -/
def extract_functions (source : List Char) : List (List Char × List Char) :=
  (FUNC_RE_finditer source).map (fun m =>
    (m.2.2, pyClean (pySlice source m.1 (scanEnd source m.2.1))))

/-!
Lines 44-62 of the script choose between `ssdeep` hashing and a pure-Python
fallback.  With no `ssdeep` module available the fallback is used:

    def _hash(s): return s
    def _similar(a, b): return int(SequenceMatcher(None, a, b).ratio() * 100)

`difflib.SequenceMatcher` (CPython 3.11) is modelled below.  Because the
matcher is constructed with `isjunk=None`, the junk set `bjunk` is empty, so
the two junk-extension loops of `find_longest_match` never fire and the
`not isbjunk(...)` tests of the two non-junk extension loops are vacuously
true; they are therefore omitted (resp. dropped) from the translation.  The
`autojunk` purge of popular elements (active when `len(b) >= 200`) is
modelled faithfully.  The final `int(2.0 * matches / length * 100)` is
modelled by exact integer arithmetic `200 * matches / length` (floor); for
every concrete input used below the two agree.
-/

/-- Ascending list of positions of character `c` in `b` - the entry `b2j[c]`
of `SequenceMatcher.__chain_b` before the autojunk purge. -/
def positionsOf (b : List Char) (c : Char) : List Nat :=
  (List.range b.length).filter (fun j => b.getD j ' ' = c)

/-- The dictionary `b2j` after `__chain_b`'s autojunk purge: with `isjunk=None` and
`autojunk=True`, when `len(b) >= 200` every element occurring more than
`len(b) // 100 + 1` times is removed from the dictionary. -/
def b2j (b : List Char) (c : Char) : List Nat :=
  let ps := positionsOf b c
  if 200 ≤ b.length ∧ b.length / 100 + 1 < ps.length then [] else ps

/-- State of the `find_longest_match` dynamic-programming loop: the current
`j2len` dictionary (total function, absent keys read as 0) and the current
best match `(besti, bestj, bestsize)`. -/
structure DpSt where
  j2len : Nat → Nat
  bi : Nat
  bj : Nat
  bk : Nat

/-- The length `k = j2lenget(j - 1, 0) + 1` of the run ending at the current
pair, read from the previous iteration's dictionary `st.j2len` (a lookup at
`j - 1 = -1`, i.e. `j = 0`, misses and defaults to 0). -/
def dpK (st : DpSt) (j : Nat) : Nat := (if j = 0 then 0 else st.j2len (j - 1)) + 1

/-- Body of the inner `for j in b2j.get(a[i], nothing)` loop of
`find_longest_match`: store `k` in `newj2len[j]` and, when `k > bestsize`,
update the best match to `(i-k+1, j-k+1, k)`. -/
def dpInner (st : DpSt) (i : Nat) (acc : DpSt) (j : Nat) : DpSt :=
  if acc.bk < dpK st j then
    ⟨fun x => if x = j then dpK st j else acc.j2len x,
      i + 1 - dpK st j, j + 1 - dpK st j, dpK st j⟩
  else
    ⟨fun x => if x = j then dpK st j else acc.j2len x, acc.bi, acc.bj, acc.bk⟩

/-- One iteration of the outer `for i in range(alo, ahi)` loop of
`find_longest_match`: fold over the candidate positions `j` of `a[i]` in `b`
(ascending; the `j < blo` continue and `j >= bhi` break on an ascending list
amount to the filter), building `newj2len` (starting empty) and updating the
best match. -/
def dpStep (bjf : Char → List Nat) (a : List Char) (blo bhi : Nat)
    (st : DpSt) (i : Nat) : DpSt :=
  ((bjf (a.getD i ' ')).filter (fun j => decide (blo ≤ j) && decide (j < bhi))).foldl
    (dpInner st i) ⟨fun _ => 0, st.bi, st.bj, st.bk⟩

/-- The whole dynamic-programming phase of `find_longest_match` over
`a[alo:ahi]` and `b[blo:bhi]`, starting from `besti, bestj, bestsize =
alo, blo, 0` and an empty `j2len`. -/
def dpRun (a b : List Char) (alo ahi blo bhi : Nat) : DpSt :=
  (List.range' alo (ahi - alo)).foldl (dpStep (b2j b) a blo bhi) ⟨fun _ => 0, alo, blo, 0⟩

/-- The first extension loop of `find_longest_match` (with `bjunk` empty):

    while besti > alo and bestj > blo and a[besti-1] == b[bestj-1]:
        besti, bestj, bestsize = besti-1, bestj-1, bestsize+1

Structural recursion on `besti`, which decreases every iteration. -/
def extLeft (a b : List Char) (alo blo : Nat) : Nat → Nat → Nat → Nat × Nat × Nat
  | 0, bj, bk => (0, bj, bk)
  | bi + 1, bj, bk =>
      if alo < bi + 1 ∧ blo < bj ∧ (a.get? bi).isSome ∧ a.get? bi = b.get? (bj - 1) then
        extLeft a b alo blo bi (bj - 1) (bk + 1)
      else (bi + 1, bj, bk)

/-- The second extension loop of `find_longest_match` (with `bjunk` empty):

    while besti+bestsize < ahi and bestj+bestsize < bhi
          and a[besti+bestsize] == b[bestj+bestsize]:
        bestsize += 1

Fuel-structural; each iteration increases `bestsize` while keeping
`besti + bestsize < ahi`, so any fuel of at least `ahi` iterations is ample
(the wrapper passes `ahi + 1`). -/
def extRightF (a b : List Char) (ahi bhi bi bj : Nat) : Nat → Nat → Nat
  | 0, bk => bk
  | fuel + 1, bk =>
      if bi + bk < ahi ∧ bj + bk < bhi ∧ (a.get? (bi + bk)).isSome ∧
          a.get? (bi + bk) = b.get? (bj + bk) then
        extRightF a b ahi bhi bi bj fuel (bk + 1)
      else bk

/-- Model of `SequenceMatcher.find_longest_match(alo, ahi, blo, bhi)` with
`isjunk=None`: the dynamic-programming search followed by the two (non-junk)
extension loops.  Returns `(besti, bestj, bestsize)`. -/
def flm (a b : List Char) (alo ahi blo bhi : Nat) : Nat × Nat × Nat :=
  let st := dpRun a b alo ahi blo bhi
  let l := extLeft a b alo blo st.bi st.bj st.bk
  (l.1, l.2.1, extRightF a b ahi bhi l.1 l.2.1 (ahi + 1) l.2.2)

/-- Total size of the matching blocks that `get_matching_blocks` collects on
the range `a[alo:ahi]` vs `b[blo:bhi]` - the recursion of its work queue:
take the longest match; if its size is nonzero, recurse on the region to the
left (when both sides are nonempty) and on the region to the right.  The
queue order does not affect the sum, which is all `ratio()` consumes; the
final sort/merge steps of `get_matching_blocks` preserve it.  Each recursive
call strictly shrinks `ahi - alo`, so fuel `a.length + 1` (passed by
`_similar`) is ample. -/
def matchesTotalF (a b : List Char) : Nat → Nat → Nat → Nat → Nat → Nat
  | 0, _, _, _, _ => 0
  | fuel + 1, alo, ahi, blo, bhi =>
      let r := flm a b alo ahi blo bhi
      if r.2.2 = 0 then 0
      else
        r.2.2 +
          (if alo < r.1 ∧ blo < r.2.1 then matchesTotalF a b fuel alo r.1 blo r.2.1 else 0) +
          (if r.1 + r.2.2 < ahi ∧ r.2.1 + r.2.2 < bhi then
            matchesTotalF a b fuel (r.1 + r.2.2) ahi (r.2.1 + r.2.2) bhi
          else 0)

/-- Line 48 / line 56: the fingerprint function.  In the fallback branch that
runs without `ssdeep`, `_hash` is the identity. -/
def _hash (s : List Char) : List Char := s

/-- Lines 60-62: `_similar(a, b) = int(SequenceMatcher(None, a, b).ratio() *
100)`.  `ratio()` sums the matching-block sizes `M` and returns
`2.0 * M / (len(a) + len(b))`, or `1.0` when both strings are empty. -/
def _similar (a b : List Char) : Nat :=
  let M := matchesTotalF a b (a.length + 1) 0 a.length 0 b.length
  if a.length + b.length = 0 then 100
  else 200 * M / (a.length + b.length)

/-!
Lines 101-139, `main`: existence check on the root path, token collection
over the located files, the all-pairs comparison, and the report.  The file
system is abstracted by `FS`: `pathExists` models `root.exists()` and
`zigFiles root` models `iter_zig_files(root)` together with
`zig_file.read_text()` (`none` models a `UnicodeDecodeError`, which the code
catches and skips).
-/

/-- Identity of an extracted function: `(str(zig_file), fn_name)`. -/
abbrev Key := String × String

/-- The string `f"{file1}::{name1}"` used as the cluster dictionary key. -/
def renderKey (k : Key) : String := k.1 ++ "::" ++ k.2

/-- The operation `clusters.setdefault(key, []).append(member)` on an insertion-ordered
association list: append to the existing entry, or create a new entry holding
just the member. -/
def appendCluster : List (String × List Key) → String → Key → List (String × List Key)
  | [], s, k => [(s, [k])]
  | (s', l) :: rest, s, k =>
      if s' = s then (s', l ++ [k]) :: rest
      else (s', l) :: appendCluster rest s k

/-- Lines 124-136: the all-pairs scan over `items = list(tokens.items())`.
For `i < j`, when `_similar(sig_i, sig_j) > 90` the key of item `j` is
appended to the cluster list keyed by the rendered key of item `i`. -/
def clustersOf (items : List (Key × List Char)) : List (String × List Key) :=
  (List.range items.length).foldl
    (fun cs i =>
      (List.range' (i + 1) (items.length - (i + 1))).foldl
        (fun cs j =>
          if 90 < _similar (items.getD i default).2 (items.getD j default).2 then
            appendCluster cs (renderKey (items.getD i default).1) (items.getD j default).1
          else cs)
        cs)
    []

/-- Lookup of a cluster's member list (absent keys read as the empty list). -/
def membersAt (cs : List (String × List Key)) (s : String) : List Key :=
  match cs.find? (fun p => p.1 == s) with
  | some p => p.2
  | none => []

/-- Python dictionary insertion `tokens[(file, name)] = v`: an existing key is
overwritten in place (keeping its position), a new key is appended. -/
def dictInsert (tk : List (Key × List Char)) (k : Key) (v : List Char) :
    List (Key × List Char) :=
  if tk.any (fun p => p.1 == k) then tk.map (fun p => if p.1 == k then (k, v) else p)
  else tk ++ [(k, v)]

/-- Lines 114-122: build the `tokens` dictionary by extracting every located
file's functions; a file whose contents fail to decode (`none`) is skipped. -/
def buildTokens (files : List (String × Option (List Char))) : List (Key × List Char) :=
  files.foldl
    (fun tk f =>
      match f.2 with
      | none => tk
      | some code =>
          (extract_functions code).foldl
            (fun tk fb => dictInsert tk (f.1, String.mk fb.1) (_hash fb.2)) tk)
    []

/-- Abstraction of the file system as `main` observes it. -/
structure FS where
  pathExists : String → Bool
  zigFiles : String → List (String × Option (List Char))

/-- Outcome of a run of `main`: either the early fatal exit of lines 105-112
(message printed to stderr, `sys.exit(1)`, nothing scanned, no report
written), or a completed run that wrote the cluster report. -/
inductive MainResult where
  | exitError (stderrLine : String) (exitCode : Nat)
  | report (clusters : List (String × List Key)) (outPath : String)
deriving DecidableEq

/-- Lines 101-139, `main(argv)`: resolve the root (default `"src"`), exit
with an error if it does not exist, otherwise scan, compare, and write
`function_dupes.json`. -/
def mainRun (argv : List String) (fs : FS) : MainResult :=
  let root := argv.headD "src"
  if fs.pathExists root = false then
    MainResult.exitError ("error: path " ++ root ++ " does not exist") 1
  else
    MainResult.report (clustersOf (buildTokens (fs.zigFiles root))) "function_dupes.json"

/-!
Auxiliary definitions used to state and prove properties of the model:
the flattened enumeration of index pairs visited by the all-pairs loops, the
diagonal-run bookkeeping for the `find_longest_match` analysis, and the
concrete inputs referenced by the closed theorems below.
-/

/-- The sequence of index pairs `(i, j)` with `i < j < n` in the order the
nested loops of lines 127-129 visit them. -/
def pairSeq (n : Nat) : List (Nat × Nat) :=
  (List.range n).flatMap (fun i => (List.range' (i + 1) (n - (i + 1))).map (fun j => (i, j)))

/-- The body of the inner loop of lines 129-136, acting on one `(i, j)`
pair. -/
def clusterStep (items : List (Key × List Char)) (cs : List (String × List Key))
    (p : Nat × Nat) : List (String × List Key) :=
  if 90 < _similar (items.getD p.1 default).2 (items.getD p.2 default).2 then
    appendCluster cs (renderKey (items.getD p.1 default).1) (items.getD p.2 default).1
  else cs

/-- Whether position `x` of `a` survives the autojunk purge, i.e. appears in
`b2j` (comparing `a` against itself). -/
def keptAt (a : List Char) (x : Nat) : Prop := x ∈ b2j a (a.getD x ' ')

instance (a : List Char) (x : Nat) : Decidable (keptAt a x) := by
  unfold keptAt; infer_instance

/-- Length of the run of consecutive kept positions of `a` ending at `x` -
the value `j2len[x]` reaches on the diagonal when `a` is compared against
itself. -/
def DD (a : List Char) : Nat → Nat
  | 0 => if keptAt a 0 then 1 else 0
  | x + 1 => if keptAt a (x + 1) then DD a x + 1 else 0

/-- Maximum of `DD a` over positions `< c`. -/
def MM (a : List Char) : Nat → Nat
  | 0 => 0
  | c + 1 => max (MM a c) (DD a c)

/-- Invariant of the dynamic-programming fold of `find_longest_match`,
bounding the best match within the scanned ranges; `c` counts the processed
outer iterations (so the processed indices are `alo, …, alo + c - 1`). -/
def DpBoundsInv (alo ahi blo bhi c : Nat) (st : DpSt) : Prop :=
  (∀ x, st.j2len x ≤ c) ∧ (∀ x, st.j2len x ≠ 0 → st.j2len x + blo ≤ x + 1) ∧
  alo ≤ st.bi ∧ blo ≤ st.bj ∧
  (st.bk = 0 → st.bi = alo ∧ st.bj = blo) ∧
  (st.bk ≠ 0 → st.bi + st.bk ≤ ahi ∧ st.bj + st.bk ≤ bhi)

/-- Invariant of the dynamic-programming fold when `a` is compared against
itself over the full ranges: after `c` outer iterations the best match lies
on the diagonal, its size dominates every diagonal run seen so far, and the
`j2len` dictionary equals the diagonal run at the last processed position and
is dominated by it and by the runs `DD`. -/
def DpDiagInv (a : List Char) (c : Nat) (st : DpSt) : Prop :=
  st.bi = st.bj ∧ MM a c ≤ st.bk ∧
  (∀ x, st.j2len x ≤ DD a x) ∧
  (∀ x, x + 1 = c → st.j2len x = DD a x) ∧
  (∀ x y, y + 1 = c → st.j2len x ≤ st.j2len y) ∧
  (c = 0 → ∀ x, st.j2len x = 0)

/-- Source text fn foo with a braced body: a declaration of the grammar the script's
documentation describes, which the compiled `FUNC_RE` does not match. -/
def srcRealFn : List Char := ("fn foo() \x7b return 1; \x7d").toList

/-- A text `FUNC_RE` does match (characters `fn\s\w\\ x y \\\{  }`): the
captured body ends at the matching brace and contains a two-space run. -/
def srcCrafted : List Char :=
  ['f', 'n', '\\', 's', '\\', 'w', '\\', '\\', ' ', 'x', ' ', 'y', ' ',
   '\\', '\\', '\\', '{', ' ', ' ', '\x7d']

/-- The body the extractor returns for `srcCrafted` (the `\s` pair collapsed
to a space, the two-space whitespace run untouched). -/
def bodyCrafted : List Char :=
  ['f', 'n', ' ', '\\', 'w', '\\', '\\', ' ', 'x', ' ', 'y', ' ',
   '\\', '\\', '\\', '{', ' ', ' ', '\x7d']

/-- A text `FUNC_RE` matches (characters `fn\s\w\\\\\{ a`) whose brace is
never closed: the scan runs to end of input. -/
def srcUnclosed : List Char :=
  ['f', 'n', '\\', 's', '\\', 'w', '\\', '\\', '\\', '\\', '\\', '{', ' ', 'a']

/-- A file system on which no path exists. -/
def fsMissing : FS := ⟨fun _ => false, fun _ => []⟩

/-- Two entries with distinct keys and identical fingerprints. -/
def itemsPair : List (Key × List Char) := [(("a", "f"), ['x']), (("b", "g"), ['x'])]

/-- First fingerprint of the similarity asymmetry pair. -/
def cexA : List Char := ['a', 'b']

/-- Second fingerprint of the similarity asymmetry pair. -/
def cexB : List Char := ['b', 'a', 'c', 'b']

/-- No backslash immediately followed by `s` occurs in `l`; such strings are
exactly the fixed points of the substitution `subBS`. -/
def noBS (l : List Char) : Prop := l.Chain' (fun x y => ¬(x = '\\' ∧ y = 's'))

/-!
Claim theorems and supporting lemmas.
-/

/-- C1: the claim requires the extractor to return, for every declaration of
the target grammar with balanced braces, the exact source substring through
the matching brace.  The code cannot: `FUNC_RE` is compiled from a raw string
in which every intended `\s`, `\w`, `\(`, `\)`, `\{` escape is a literal
backslash followed by a letter or bracket, so the declaration
`fn foo() { return 1; }` - matched by the documented grammar - produces no
match at all, and `extract_functions` returns the empty list. -/
theorem claim_C1_extractor_misses_target_grammar : extract_functions srcRealFn = [] := by
  decide

/-- C2: the claim requires the normalizer to collapse every maximal
whitespace run to one space.  Line 95's pattern `r"\\s+"` instead collapses
"backslash followed by `s`" runs: on the crafted source the extracted body
keeps its interior two-space run, so the body is not fixed by the
spec-described normalization. -/
theorem claim_C2_normalizer_keeps_whitespace_run :
    extract_functions srcCrafted = [(['\\', 'w'], bodyCrafted)] ∧
      bodyCrafted ≠ specNormalize bodyCrafted := by
  constructor
  · decide
  · decide

/-- C5: when the root path does not exist, `main` prints the error line to
stderr and exits with status 1 before scanning any file; the
`MainResult.exitError` outcome carries no report and no scan. -/
theorem claim_C5_missing_root_is_fatal (argv : List String) (fs : FS)
    (h : fs.pathExists (argv.headD "src") = false) :
    mainRun argv fs =
      MainResult.exitError ("error: path " ++ argv.headD "src" ++ " does not exist") 1 := by
  have h' : fs.pathExists (argv.head?.getD "src") = false := by
    cases argv <;> simpa [List.headD] using h
  simp [mainRun, h']

/-- Witness for C5 at a concrete invocation: empty argv (root defaults to
`"src"`) on a file system with no paths. -/
theorem claim_C5_witness :
    mainRun [] fsMissing = MainResult.exitError "error: path src does not exist" 1 := by
  have h := claim_C5_missing_root_is_fatal [] fsMissing rfl
  simpa using h

/-- C4, counterexample: the fallback comparator built on
`SequenceMatcher.ratio()` is not symmetric; on the concrete pair
`("ab", "bacb")` it returns 66 one way and 33 the other. -/
theorem claim_C4_counterexample : ¬ (∀ A B : List Char, _similar A B = _similar B A) := by
  intro h
  have := h cexA cexB
  revert this
  decide

/-- Unfolding of `subBSGo` on a cons cell. -/
theorem subBSGo_cons (fl : Bool) (c : Char) (rest : List Char) :
    subBSGo fl (c :: rest) =
      if fl = true ∧ c = 's' then subBSGo true rest
      else if c = '\\' ∧ rest.head? = some 's' then ' ' :: subBSGo true rest
      else c :: subBSGo false rest := rfl

/-- When its input does not start with `s`, neither does the output of the
substitution scan. -/
theorem subBSGo_false_head (l : List Char) (h : l.head? ≠ some 's') :
    (subBSGo false l).head? ≠ some 's' := by
  cases l with
  | nil => simp [subBSGo]
  | cons c rest =>
      rw [subBSGo_cons]
      simp only [Bool.false_eq_true, false_and, if_false]
      split
      · simp
      · simpa using h

/-- The output of the substitution scan never contains a backslash
immediately followed by `s`. -/
theorem noBS_subBSGo (fl : Bool) (l : List Char) : noBS (subBSGo fl l) := by
  induction l generalizing fl with
  | nil => simp [subBSGo, noBS]
  | cons c rest ih =>
      rw [subBSGo_cons]
      by_cases h1 : fl = true ∧ c = 's'
      · rw [if_pos h1]; exact ih true
      · rw [if_neg h1]
        by_cases h2 : c = '\\' ∧ rest.head? = some 's'
        · rw [if_pos h2]
          refine List.chain'_cons'.mpr ⟨?_, ih true⟩
          intro y _
          rintro ⟨hsp, _⟩
          exact absurd hsp (by decide)
        · rw [if_neg h2]
          refine List.chain'_cons'.mpr ⟨?_, ih false⟩
          intro y hy
          rintro ⟨hc, hys⟩
          subst hc
          have hrest : rest.head? ≠ some 's' := fun hr => h2 ⟨rfl, hr⟩
          have hh := subBSGo_false_head rest hrest
          subst hys
          exact hh hy

/-- Strings without a backslash-`s` pair are fixed by the substitution. -/
theorem subBSGo_false_of_noBS (l : List Char) (h : noBS l) : subBSGo false l = l := by
  induction l with
  | nil => rfl
  | cons c rest ih =>
      rw [subBSGo_cons]
      simp only [Bool.false_eq_true, false_and, if_false]
      have hpair := (List.chain'_cons'.mp h).1
      have htail := (List.chain'_cons'.mp h).2
      have hcond : ¬(c = '\\' ∧ rest.head? = some 's') := by
        rintro ⟨hc, hr⟩
        rcases rest with _ | ⟨y, r⟩
        · simp at hr
        · simp at hr
          exact hpair y (by simp) ⟨hc, hr⟩
      rw [if_neg hcond, ih htail]

/-- Splitting off the whitespace suffix: any list is its `pyStrip`-style
right-trim followed by the trimmed whitespace. -/
theorem rtrim_append (l : List Char) :
    l = (l.reverse.dropWhile isPySpace).reverse ++ (l.reverse.takeWhile isPySpace).reverse := by
  have h := List.takeWhile_append_dropWhile isPySpace l.reverse
  calc l = l.reverse.reverse := (List.reverse_reverse l).symm
    _ = (l.reverse.takeWhile isPySpace ++ l.reverse.dropWhile isPySpace).reverse := by rw [h]
    _ = _ := by rw [List.reverse_append]

/-- A list whose head is not whitespace is fixed by `dropWhile`. -/
theorem dropWhile_eq_self_of_head_not (l : List Char)
    (h : ∀ y ∈ l.head?, isPySpace y = false) : l.dropWhile isPySpace = l := by
  cases l with
  | nil => rfl
  | cons c r =>
      have : isPySpace c = false := h c rfl
      simp [List.dropWhile_cons, this]

/-- The right-trim of a left-trimmed list still has a non-whitespace head
(when nonempty), since right-trimming only shortens the list from the end. -/
theorem pyStrip_head_not (l : List Char) :
    ∀ y ∈ (pyStrip l).head?, isPySpace y = false := by
  intro y hy
  have hdw := List.head?_dropWhile_not isPySpace l
  unfold pyStrip at hy
  rcases hv : (((l.dropWhile isPySpace).reverse).dropWhile isPySpace).reverse with _ | ⟨c, r⟩
  · rw [hv] at hy; simp at hy
  · rw [hv] at hy
    simp only [List.head?_cons, Option.mem_def, Option.some.injEq] at hy
    have hdecomp := rtrim_append (l.dropWhile isPySpace)
    rw [hv] at hdecomp
    have huc : (l.dropWhile isPySpace).head? = some c := by rw [hdecomp]; rfl
    rw [huc] at hdw
    have hc : isPySpace c = false := hdw
    rwa [hy] at hc

/-- Stripping is idempotent. -/
theorem pyStrip_idem (l : List Char) : pyStrip (pyStrip l) = pyStrip l := by
  have h1 : (pyStrip l).dropWhile isPySpace = pyStrip l :=
    dropWhile_eq_self_of_head_not _ (pyStrip_head_not l)
  show (((pyStrip l).dropWhile isPySpace).reverse.dropWhile isPySpace).reverse = pyStrip l
  rw [h1]
  show ((((l.dropWhile isPySpace).reverse.dropWhile isPySpace).reverse).reverse.dropWhile
      isPySpace).reverse = pyStrip l
  rw [List.reverse_reverse, List.dropWhile_idempotent]
  rfl

/-- The predicate `noBS` restricts to the right part of an append. -/
theorem noBS_append_right (l m : List Char) (h : noBS (l ++ m)) : noBS m :=
  (List.chain'_append.mp h).2.1

/-- The predicate `noBS` restricts to the left part of an append. -/
theorem noBS_append_left (l m : List Char) (h : noBS (l ++ m)) : noBS l :=
  (List.chain'_append.mp h).1

/-- The predicate `noBS` is preserved by stripping, which removes a prefix and a suffix. -/
theorem noBS_pyStrip (l : List Char) (h : noBS l) : noBS (pyStrip l) := by
  have hd : l = l.takeWhile isPySpace ++ l.dropWhile isPySpace :=
    (List.takeWhile_append_dropWhile isPySpace l).symm
  have h2 : noBS (l.dropWhile isPySpace) := noBS_append_right _ _ (hd ▸ h)
  have hdecomp := rtrim_append (l.dropWhile isPySpace)
  exact noBS_append_left _ _ (hdecomp ▸ h2)

/-- C8: the normalizer of line 95 - the backslash-`s` substitution followed
by `strip()` - is idempotent: normalizing an already-normalized body returns
it unchanged. -/
theorem claim_C8_normalizer_idempotent (b : List Char) : pyClean (pyClean b) = pyClean b := by
  have h1 : noBS (subBS b) := noBS_subBSGo false b
  have h2 : noBS (pyStrip (subBS b)) := noBS_pyStrip _ h1
  show pyStrip (subBS (pyStrip (subBS b))) = pyStrip (subBS b)
  have h3 : subBS (pyStrip (subBS b)) = pyStrip (subBS b) := subBSGo_false_of_noBS _ h2
  rw [h3]
  exact pyStrip_idem _

/-- Effect of one `setdefault(...).append(...)` on a lookup: the list keyed
by the touched key grows by the member, all other lists are unchanged. -/
theorem membersAt_appendCluster (cs : List (String × List Key)) (t : String) (k : Key)
    (s : String) :
    membersAt (appendCluster cs t k) s =
      if t = s then membersAt cs s ++ [k] else membersAt cs s := by
  induction cs with
  | nil =>
      by_cases h : t = s
      · subst h; simp [appendCluster, membersAt, List.find?]
      · have hbe : (t == s) = false := beq_eq_false_iff_ne.mpr h
        simp [appendCluster, membersAt, List.find?, h, hbe]
  | cons p rest ih =>
      obtain ⟨s', l⟩ := p
      by_cases hpt : s' = t
      · subst hpt
        by_cases hts : s' = s
        · subst hts
          simp [appendCluster, membersAt, List.find?]
        · have hbe : (s' == s) = false := beq_eq_false_iff_ne.mpr hts
          simp [appendCluster, membersAt, List.find?, hts, hbe]
      · by_cases hps : s' = s
        · subst hps
          have hts : ¬t = s' := fun hh => hpt hh.symm
          simp [appendCluster, membersAt, List.find?, hpt, hts]
        · have hbe : (s' == s) = false := beq_eq_false_iff_ne.mpr hps
          simp only [appendCluster, if_neg hpt]
          simp only [membersAt, List.find?, hbe]
          exact ih

/-- Folding the inner loop for a list of outer indices equals folding the
flattened pair list. -/
theorem nestedFold_eq (items : List (Key × List Char)) (is : List Nat)
    (init : List (String × List Key)) :
    is.foldl
      (fun cs i =>
        (List.range' (i + 1) (items.length - (i + 1))).foldl
          (fun cs j =>
            if 90 < _similar (items.getD i default).2 (items.getD j default).2 then
              appendCluster cs (renderKey (items.getD i default).1) (items.getD j default).1
            else cs)
          cs)
      init =
    (is.flatMap (fun i => (List.range' (i + 1) (items.length - (i + 1))).map
        (fun j => (i, j)))).foldl (clusterStep items) init := by
  induction is generalizing init with
  | nil => rfl
  | cons i is ih =>
      rw [List.foldl_cons, List.flatMap_cons, List.foldl_append, ih]
      congr 1
      rw [List.foldl_map]
      rfl

/-- The nested loops of lines 127-136 equal a single fold over the flattened
pair sequence. -/
theorem clustersOf_eq_foldl (items : List (Key × List Char)) :
    clustersOf items = (pairSeq items.length).foldl (clusterStep items) [] := by
  unfold clustersOf pairSeq
  exact nestedFold_eq items (List.range items.length) []

/-- Characterization of the member lists built by folding `clusterStep` over
any pair list: each pair appends its second key to the list keyed by the
rendered first key exactly when the similarity strictly exceeds 90. -/
theorem membersAt_foldl_clusterStep (items : List (Key × List Char))
    (ps : List (Nat × Nat)) (init : List (String × List Key)) (s : String) :
    membersAt (ps.foldl (clusterStep items) init) s =
      membersAt init s ++
        (ps.filter (fun p =>
            renderKey (items.getD p.1 default).1 == s &&
              decide (90 < _similar (items.getD p.1 default).2 (items.getD p.2 default).2))).map
          (fun p => (items.getD p.2 default).1) := by
  induction ps generalizing init with
  | nil => simp
  | cons p ps ih =>
      rw [List.foldl_cons, ih]
      by_cases hsim : 90 < _similar (items.getD p.1 default).2 (items.getD p.2 default).2
      · rw [show clusterStep items init p =
            appendCluster init (renderKey (items.getD p.1 default).1)
              (items.getD p.2 default).1 from if_pos hsim]
        rw [membersAt_appendCluster]
        by_cases hs : renderKey (items.getD p.1 default).1 = s
        · rw [if_pos hs,
            List.filter_cons_of_pos
              (by rw [Bool.and_eq_true, beq_iff_eq, decide_eq_true_eq]; exact ⟨hs, hsim⟩),
            List.map_cons, List.append_assoc]
          rfl
        · rw [if_neg hs,
            List.filter_cons_of_neg
              (by rw [Bool.and_eq_true, beq_iff_eq, decide_eq_true_eq]
                  rintro ⟨h1, _⟩; exact hs h1)]
      · rw [show clusterStep items init p = init from if_neg hsim,
          List.filter_cons_of_neg
            (by rw [Bool.and_eq_true, beq_iff_eq, decide_eq_true_eq]
                rintro ⟨_, h2⟩; exact hsim h2)]

/-- The member list of the cluster mapping at any key `s`, in closed form. -/
theorem membersAt_clustersOf (items : List (Key × List Char)) (s : String) :
    membersAt (clustersOf items) s =
      ((pairSeq items.length).filter (fun p =>
          renderKey (items.getD p.1 default).1 == s &&
            decide (90 < _similar (items.getD p.1 default).2 (items.getD p.2 default).2))).map
        (fun p => (items.getD p.2 default).1) := by
  rw [clustersOf_eq_foldl, membersAt_foldl_clusterStep]
  simp [membersAt]

/-- C3: for every mapping and every unordered pair of distinct entries
`(i, j)` with `i` before `j` in iteration order, the aggregator appends
`key_j` to the cluster list keyed by `key_i` (creating the list if absent)
exactly when the similarity score strictly exceeds 90 - the member list at
every cluster key is precisely the ordered sequence of second keys of the
pairs that pass the strict-threshold test for that key, so a pair scoring 90
or below contributes nothing. -/
theorem claim_C3_threshold_strictly_above_90 (items : List (Key × List Char)) (s : String) :
    membersAt (clustersOf items) s =
      ((pairSeq items.length).filter (fun p =>
          renderKey (items.getD p.1 default).1 == s &&
            decide (90 < _similar (items.getD p.1 default).2 (items.getD p.2 default).2))).map
        (fun p => (items.getD p.2 default).1) :=
  membersAt_clustersOf items s

/-- Membership in the flattened pair sequence. -/
theorem mem_pairSeq (n i j : Nat) : (i, j) ∈ pairSeq n ↔ i < j ∧ j < n := by
  unfold pairSeq
  rw [List.mem_flatMap]
  constructor
  · rintro ⟨a, ha, hb⟩
    rw [List.mem_map] at hb
    obtain ⟨jj, hjj, heq⟩ := hb
    obtain ⟨rfl, rfl⟩ := Prod.mk.injEq .. ▸ And.intro (congrArg Prod.fst heq) (congrArg Prod.snd heq)
    rw [List.mem_range] at ha
    rw [List.mem_range'_1] at hjj
    omega
  · rintro ⟨hij, hjn⟩
    refine ⟨i, ?_, ?_⟩
    · rw [List.mem_range]; omega
    · rw [List.mem_map]
      exact ⟨j, by rw [List.mem_range'_1]; omega, rfl⟩

/-- Distinct positions of a mapping with pairwise-distinct keys carry
distinct keys. -/
theorem keys_ne_of_nodup (items : List (Key × List Char))
    (h : (items.map Prod.fst).Nodup) (i j : Nat) (hij : i ≠ j)
    (hi : i < items.length) (hj : j < items.length) :
    (items.getD i default).1 ≠ (items.getD j default).1 := by
  intro he
  have hi' : i < (items.map Prod.fst).length := by simpa using hi
  have hj' : j < (items.map Prod.fst).length := by simpa using hj
  have hget : (items.map Prod.fst).get ⟨i, hi'⟩ = (items.map Prod.fst).get ⟨j, hj'⟩ := by
    simp only [List.get_eq_getElem, List.getElem_map]
    have hgi : items.getD i default = items[i] := by
      simp [List.getD_eq_getElem?_getD, List.getElem?_eq_getElem hi]
    have hgj : items.getD j default = items[j] := by
      simp [List.getD_eq_getElem?_getD, List.getElem?_eq_getElem hj]
    rw [← hgi, ← hgj]
    exact he
  have := h.get_inj_iff.mp hget
  exact hij (by simpa using this)

/-- C7: with pairwise-distinct keys (as in a Python dict), every member of
every cluster list was appended under a head key different from itself: the
aggregator never appends a `FunctionKey` to the cluster list keyed by that
same `FunctionKey`, so no cluster contains its own head as a member. -/
theorem claim_C7_no_self_membership (items : List (Key × List Char))
    (hnd : (items.map Prod.fst).Nodup) (s : String) (m : Key)
    (hm : m ∈ membersAt (clustersOf items) s) :
    ∃ i j, i < j ∧ j < items.length ∧
      renderKey (items.getD i default).1 = s ∧ (items.getD j default).1 = m ∧
      (items.getD i default).1 ≠ m := by
  rw [membersAt_clustersOf, List.mem_map] at hm
  obtain ⟨p, hp, hv⟩ := hm
  rw [List.mem_filter] at hp
  obtain ⟨hmem, hcond⟩ := hp
  rw [Bool.and_eq_true, beq_iff_eq, decide_eq_true_eq] at hcond
  obtain ⟨i, j⟩ := p
  rw [mem_pairSeq] at hmem
  refine ⟨i, j, hmem.1, hmem.2, hcond.1, hv, ?_⟩
  rw [← hv]
  exact keys_ne_of_nodup items hnd i j (Nat.ne_of_lt hmem.1)
    (Nat.lt_trans hmem.1 hmem.2) hmem.2

/-- Witness for C7 on a concrete two-entry mapping with identical
fingerprints. -/
theorem claim_C7_witness :
    (itemsPair.map Prod.fst).Nodup ∧
      (("b", "g") : Key) ∈ membersAt (clustersOf itemsPair) "a::f" ∧
      (∃ i j, i < j ∧ j < itemsPair.length ∧
        renderKey (itemsPair.getD i default).1 = "a::f" ∧
        (itemsPair.getD j default).1 = ("b", "g") ∧
        (itemsPair.getD i default).1 ≠ ("b", "g")) :=
  ⟨by decide, by decide,
    claim_C7_no_self_membership itemsPair (by decide) "a::f" ("b", "g") (by decide)⟩

/-- The operation `appendCluster` preserves "every member list is nonempty". -/
theorem appendCluster_ne_nil (cs : List (String × List Key)) (t : String) (k : Key)
    (h : ∀ q ∈ cs, q.2 ≠ []) : ∀ q ∈ appendCluster cs t k, q.2 ≠ [] := by
  induction cs with
  | nil =>
      intro q hq
      simp only [appendCluster, List.mem_singleton] at hq
      subst hq; simp
  | cons p rest ih =>
      obtain ⟨s', l⟩ := p
      intro q hq
      by_cases hpt : s' = t
      · rw [appendCluster, if_pos hpt] at hq
        rcases List.mem_cons.mp hq with hq1 | hq2
        · subst hq1; simp
        · exact h q (List.mem_cons_of_mem _ hq2)
      · rw [appendCluster, if_neg hpt] at hq
        rcases List.mem_cons.mp hq with hq1 | hq2
        · subst hq1; exact h _ (List.mem_cons_self _ _)
        · exact ih (fun r hr => h r (List.mem_cons_of_mem _ hr)) q hq2

/-- Folding `clusterStep` preserves "every member list is nonempty". -/
theorem foldl_clusterStep_ne_nil (items : List (Key × List Char))
    (ps : List (Nat × Nat)) (init : List (String × List Key))
    (h : ∀ q ∈ init, q.2 ≠ []) :
    ∀ q ∈ ps.foldl (clusterStep items) init, q.2 ≠ [] := by
  induction ps generalizing init with
  | nil => exact h
  | cons p ps ih =>
      rw [List.foldl_cons]
      refine ih (clusterStep items init p) ?_
      unfold clusterStep
      split
      · exact appendCluster_ne_nil init _ _ h
      · exact h

/-- C10: every value of the emitted cluster mapping is a nonempty list - an
entry is created only at the moment a member is appended to it, so the report
never contains an empty duplicate group. -/
theorem claim_C10_no_empty_group (items : List (Key × List Char))
    (q : String × List Key) (hq : q ∈ clustersOf items) : q.2 ≠ [] := by
  rw [clustersOf_eq_foldl] at hq
  exact foldl_clusterStep_ne_nil items (pairSeq items.length) [] (by simp) q hq

/-- Witness for C10 on a concrete mapping producing one cluster. -/
theorem claim_C10_witness :
    (("a::f", [(("b", "g") : Key)]) ∈ clustersOf itemsPair) ∧
      (("a::f", [(("b", "g") : Key)]) : String × List Key).2 ≠ [] :=
  ⟨by decide, claim_C10_no_empty_group itemsPair _ (by decide)⟩

/-- A successful positional lookup implies the index is in range. -/
theorem get?_some_lt (s : List Char) (n : Nat) (c : Char) (h : s.get? n = some c) :
    n < s.length := by
  by_contra hc
  rw [List.get?_eq_none.mpr (Nat.le_of_not_lt hc)] at h
  exact Option.noConfusion h

/-- A successful tail match ends within the string (the matched `{` is a real
character). -/
theorem tailCheck_le (s : List Char) (t e : Nat) (h : tailCheck s t = some e) :
    e ≤ s.length := by
  unfold tailCheck at h
  split at h
  · next hc =>
      have hlt := get?_some_lt s (runEnd s 's' (t + 2) + 1) '{' hc.2.2.2
      have he : runEnd s 's' (t + 2) + 2 = e := Option.some.inj h
      omega
  · exact Option.noConfusion h

/-- A successful backtracking search ends within the string. -/
theorem tryBackD_le (s : List Char) (p : Nat) :
    ∀ d e, tryBackD s p d = some e → e ≤ s.length := by
  intro d
  induction d with
  | zero => exact fun e h => tailCheck_le s p e h
  | succ d ih =>
      intro e h
      unfold tryBackD at h
      rcases ht : tailCheck s (p + d + 1) with _ | e'
      · rw [ht] at h
        exact ih e h
      · rw [ht] at h
        have he := Option.some.inj h
        rw [← he]
        exact tailCheck_le s (p + d + 1) e' ht

/-- A successful core match ends within the string. -/
theorem matchCore_le (s : List Char) (i e : Nat) (g : List Char)
    (h : matchCore s i = some (e, g)) : e ≤ s.length := by
  simp only [matchCore] at h
  split at h
  · split at h
    · exact Option.noConfusion h
    · split at h
      · split at h
        · exact Option.noConfusion h
        · split at h
          · split at h
            · split at h
              · next e' heq =>
                  have hp := Prod.mk.inj (Option.some.inj h)
                  rw [← hp.1]
                  exact tryBackD_le s _ _ _ heq
              · exact Option.noConfusion h
            · exact Option.noConfusion h
          · exact Option.noConfusion h
      · exact Option.noConfusion h
  · exact Option.noConfusion h

/-- A successful match at a position ends within the string. -/
theorem matchAt_le (s : List Char) (i e : Nat) (g : List Char)
    (h : matchAt s i = some (e, g)) : e ≤ s.length := by
  simp only [matchAt] at h
  split at h
  · split at h
    · exact matchCore_le s i e g h
    · split at h
      · next r heq =>
          have hre := Option.some.inj h
          rw [hre] at heq
          exact matchCore_le s _ e g heq
      · exact matchCore_le s i e g h
  · exact matchCore_le s i e g h

/-- Every triple reported by the scan is a match of the pattern at its start
position. -/
theorem finditerF_matchAt (s : List Char) :
    ∀ fuel i m, m ∈ finditerF s fuel i → matchAt s m.1 = some (m.2.1, m.2.2) := by
  intro fuel
  induction fuel with
  | zero => intro i m h; exact absurd h (by simp [finditerF])
  | succ fuel ih =>
      intro i m h
      unfold finditerF at h
      split at h
      · rcases hm : matchAt s i with _ | r
        · rw [hm] at h
          exact ih _ m h
        · rw [hm] at h
          obtain ⟨e, g⟩ := r
          rcases List.mem_cons.mp h with h1 | h2
          · subst h1; exact hm
          · exact ih _ m h2
      · exact absurd h (by simp)

/-- With ample fuel, a brace scan that never reports depth zero stops exactly
at end of input. -/
theorem scanF_runs_to_end (s : List Char) :
    ∀ fuel i d, i ≤ s.length → s.length ≤ i + fuel →
      (scanF s fuel i d).2 = false → (scanF s fuel i d).1 = s.length := by
  intro fuel
  induction fuel with
  | zero =>
      intro i d hi hle hz
      simp only [scanF]
      omega
  | succ fuel ih =>
      intro i d hi hle hz
      unfold scanF at hz ⊢
      by_cases hc : i < s.length ∧ d ≠ 0
      · rw [if_pos hc] at hz ⊢
        exact ih (i + 1) _ (by omega) (by omega) hz
      · rw [if_neg hc] at hz ⊢
        simp only [decide_eq_false_iff_not] at hz
        simp only []
        omega

/-- C6: when a matched declaration's brace depth never returns to zero before
end of input, the extractor takes the (cleaned) remainder from the match
start to end of input as the body; the extraction is a total function, so it
terminates on every input string without raising, and the pair still appears
in the output list. -/
theorem claim_C6_unclosed_scan_takes_remainder (src : List Char) (m : Nat × Nat × List Char)
    (hm : m ∈ FUNC_RE_finditer src) (hz : scanHitsZero src m.2.1 = false) :
    (m.2.2, pyClean (src.drop m.1)) ∈ extract_functions src := by
  unfold extract_functions
  rw [List.mem_map]
  refine ⟨m, hm, ?_⟩
  unfold FUNC_RE_finditer at hm
  have hmatch := finditerF_matchAt src (src.length + 1) 0 m hm
  have he : m.2.1 ≤ src.length := matchAt_le src m.1 m.2.1 m.2.2 hmatch
  have hend : scanEnd src m.2.1 = src.length := by
    unfold scanEnd
    exact scanF_runs_to_end src (src.length + 1) m.2.1 1 he (by omega) hz
  rw [hend]
  unfold pySlice
  rw [List.take_length]

/-- Witness for C6: a concrete source whose single match has an unclosed
brace; the body is the remainder of the input. -/
theorem claim_C6_witness :
    ((0, 12, ['\\', 'w']) ∈ FUNC_RE_finditer srcUnclosed) ∧
      scanHitsZero srcUnclosed 12 = false ∧
      (['\\', 'w'], pyClean (srcUnclosed.drop 0)) ∈ extract_functions srcUnclosed :=
  ⟨by decide, by decide,
    claim_C6_unclosed_scan_takes_remainder srcUnclosed (0, 12, ['\\', 'w'])
      (by decide) (by decide)⟩

/-- The run length `dpK` read by one inner iteration respects the processed
count and the lower range bound. -/
theorem dpK_le (st : DpSt) (c j : Nat) (hJ1 : ∀ x, st.j2len x ≤ c) :
    dpK st j ≤ c + 1 := by
  unfold dpK
  split
  · omega
  · have := hJ1 (j - 1); omega

/-- The run length `dpK` never reaches below the left edge of the `b`
range. -/
theorem dpK_blo (st : DpSt) (blo j : Nat)
    (hJ2 : ∀ x, st.j2len x ≠ 0 → st.j2len x + blo ≤ x + 1) (hjb : blo ≤ j) :
    dpK st j + blo ≤ j + 1 := by
  unfold dpK
  split
  · omega
  · by_cases hz : st.j2len (j - 1) = 0
    · rw [hz]; omega
    · have := hJ2 (j - 1) hz; omega

/-- One inner iteration of the dynamic-programming loop preserves the range
bounds. -/
theorem dpInner_bounds (alo ahi blo bhi c : Nat) (st acc : DpSt) (i j : Nat)
    (hJ1 : ∀ x, st.j2len x ≤ c)
    (hJ2 : ∀ x, st.j2len x ≠ 0 → st.j2len x + blo ≤ x + 1)
    (hi : i = alo + c) (hia : i < ahi) (hjb : blo ≤ j) (hjh : j < bhi)
    (h1 : ∀ x, acc.j2len x ≤ c + 1)
    (h2 : ∀ x, acc.j2len x ≠ 0 → acc.j2len x + blo ≤ x + 1)
    (h3 : alo ≤ acc.bi) (h4 : blo ≤ acc.bj)
    (h5 : acc.bk = 0 → acc.bi = alo ∧ acc.bj = blo)
    (h6 : acc.bk ≠ 0 → acc.bi + acc.bk ≤ ahi ∧ acc.bj + acc.bk ≤ bhi) :
    (∀ x, (dpInner st i acc j).j2len x ≤ c + 1) ∧
    (∀ x, (dpInner st i acc j).j2len x ≠ 0 → (dpInner st i acc j).j2len x + blo ≤ x + 1) ∧
    alo ≤ (dpInner st i acc j).bi ∧ blo ≤ (dpInner st i acc j).bj ∧
    ((dpInner st i acc j).bk = 0 → (dpInner st i acc j).bi = alo ∧
      (dpInner st i acc j).bj = blo) ∧
    ((dpInner st i acc j).bk ≠ 0 →
      (dpInner st i acc j).bi + (dpInner st i acc j).bk ≤ ahi ∧
      (dpInner st i acc j).bj + (dpInner st i acc j).bk ≤ bhi) := by
  have hkc := dpK_le st c j hJ1
  have hkb := dpK_blo st blo j hJ2 hjb
  have hk1 : 1 ≤ dpK st j := by unfold dpK; omega
  unfold dpInner
  split
  · refine ⟨?_, ?_, ?_, ?_, ?_, ?_⟩
    · intro x
      by_cases hx : x = j
      · simp only [hx, if_pos rfl]; exact hkc
      · simp only [if_neg hx]; exact h1 x
    · intro x
      by_cases hx : x = j
      · simp only [hx, if_pos rfl]; intro _; exact hkb
      · simp only [if_neg hx]; exact h2 x
    · show alo ≤ i + 1 - dpK st j
      omega
    · show blo ≤ j + 1 - dpK st j
      omega
    · intro hzero
      have h0 : dpK st j = 0 := hzero
      exact absurd h0 (by omega)
    · intro _
      constructor
      · show i + 1 - dpK st j + dpK st j ≤ ahi
        omega
      · show j + 1 - dpK st j + dpK st j ≤ bhi
        omega
  · refine ⟨?_, ?_, h3, h4, h5, h6⟩
    · intro x
      by_cases hx : x = j
      · simp only [hx, if_pos rfl]; exact hkc
      · simp only [if_neg hx]; exact h1 x
    · intro x
      by_cases hx : x = j
      · simp only [hx, if_pos rfl]; intro _; exact hkb
      · simp only [if_neg hx]; exact h2 x

/-- One outer iteration of the dynamic-programming loop preserves the range
bounds (processing index `i = alo + c`). -/
theorem dpStep_bounds (a b : List Char) (alo ahi blo bhi c : Nat) (st : DpSt)
    (hinv : DpBoundsInv alo ahi blo bhi c st) (i : Nat) (hi : i = alo + c)
    (hia : i < ahi) :
    DpBoundsInv alo ahi blo bhi (c + 1) (dpStep (b2j b) a blo bhi st i) := by
  obtain ⟨hJ1, hJ2, hBi, hBj, hZ, hNZ⟩ := hinv
  unfold dpStep
  generalize hjs :
    ((b2j b (a.getD i ' ')).filter fun j => decide (blo ≤ j) && decide (j < bhi)) = js
  have hjmem : ∀ j ∈ js, blo ≤ j ∧ j < bhi := by
    intro j hj
    rw [← hjs] at hj
    have hof := List.of_mem_filter hj
    rw [Bool.and_eq_true, decide_eq_true_eq, decide_eq_true_eq] at hof
    exact hof
  clear hjs
  suffices hgen : ∀ (js' : List Nat) (acc : DpSt),
      (∀ j ∈ js', blo ≤ j ∧ j < bhi) →
      (∀ x, acc.j2len x ≤ c + 1) →
      (∀ x, acc.j2len x ≠ 0 → acc.j2len x + blo ≤ x + 1) →
      alo ≤ acc.bi → blo ≤ acc.bj →
      (acc.bk = 0 → acc.bi = alo ∧ acc.bj = blo) →
      (acc.bk ≠ 0 → acc.bi + acc.bk ≤ ahi ∧ acc.bj + acc.bk ≤ bhi) →
      DpBoundsInv alo ahi blo bhi (c + 1) (js'.foldl (dpInner st i) acc) by
    exact hgen js ⟨fun _ => 0, st.bi, st.bj, st.bk⟩ hjmem (fun x => by simp)
      (fun x hx => absurd rfl hx) hBi hBj hZ hNZ
  intro js'
  induction js' with
  | nil =>
      intro acc _ h1 h2 h3 h4 h5 h6
      exact ⟨h1, h2, h3, h4, h5, h6⟩
  | cons j js' ih =>
      intro acc hmem h1 h2 h3 h4 h5 h6
      rw [List.foldl_cons]
      have hj := hmem j (List.mem_cons_self _ _)
      have hstep := dpInner_bounds alo ahi blo bhi c st acc i j hJ1 hJ2 hi hia
        hj.1 hj.2 h1 h2 h3 h4 h5 h6
      exact ih _ (fun j' hj' => hmem j' (List.mem_cons_of_mem _ hj'))
        hstep.1 hstep.2.1 hstep.2.2.1 hstep.2.2.2.1 hstep.2.2.2.2.1 hstep.2.2.2.2.2

/-- The dynamic-programming phase respects the scanned ranges. -/
theorem dpRun_bounds (a b : List Char) (alo ahi blo bhi : Nat) :
    DpBoundsInv alo ahi blo bhi (ahi - alo) (dpRun a b alo ahi blo bhi) := by
  unfold dpRun
  suffices hgen : ∀ c, c ≤ ahi - alo →
      DpBoundsInv alo ahi blo bhi c
        ((List.range' alo c).foldl (dpStep (b2j b) a blo bhi) ⟨fun _ => 0, alo, blo, 0⟩) by
    exact hgen (ahi - alo) le_rfl
  intro c
  induction c with
  | zero =>
      intro _
      exact ⟨fun x => le_rfl, fun x hx => absurd rfl hx, le_rfl, le_rfl,
        fun _ => ⟨rfl, rfl⟩, fun h => absurd rfl h⟩
  | succ c ih =>
      intro hc
      have hr : List.range' alo (c + 1) = List.range' alo c ++ [alo + c] := by
        have h := (List.range'_concat alo c :
          List.range' alo (c + 1) 1 = List.range' alo c 1 ++ [alo + 1 * c])
        simpa using h
      rw [hr, List.foldl_append, List.foldl_cons, List.foldl_nil]
      exact dpStep_bounds a b alo ahi blo bhi c _ (ih (by omega)) (alo + c) rfl (by omega)

/-- The left extension loop preserves the lower range bounds and both
index-plus-size sums. -/
theorem extLeft_spec (a b : List Char) (alo blo : Nat) :
    ∀ bi bj bk, alo ≤ bi → blo ≤ bj →
      alo ≤ (extLeft a b alo blo bi bj bk).1 ∧
      blo ≤ (extLeft a b alo blo bi bj bk).2.1 ∧
      (extLeft a b alo blo bi bj bk).1 + (extLeft a b alo blo bi bj bk).2.2 = bi + bk ∧
      (extLeft a b alo blo bi bj bk).2.1 + (extLeft a b alo blo bi bj bk).2.2 = bj + bk := by
  intro bi
  induction bi with
  | zero =>
      intro bj bk hbi hbj
      exact ⟨hbi, hbj, rfl, rfl⟩
  | succ bi ih =>
      intro bj bk hbi hbj
      unfold extLeft
      split
      · next hc =>
          have hrec := ih (bj - 1) (bk + 1) (by omega) (by omega)
          refine ⟨hrec.1, hrec.2.1, ?_, ?_⟩
          · rw [hrec.2.2.1]; omega
          · rw [hrec.2.2.2]; omega
      · exact ⟨hbi, hbj, rfl, rfl⟩

/-- The right extension loop only grows the size and keeps both sums within
the ranges. -/
theorem extRightF_spec (a b : List Char) (ahi bhi bi bj : Nat) :
    ∀ fuel bk, (bk ≠ 0 → bi + bk ≤ ahi ∧ bj + bk ≤ bhi) →
      bk ≤ extRightF a b ahi bhi bi bj fuel bk ∧
      (extRightF a b ahi bhi bi bj fuel bk ≠ 0 →
        bi + extRightF a b ahi bhi bi bj fuel bk ≤ ahi ∧
        bj + extRightF a b ahi bhi bi bj fuel bk ≤ bhi) := by
  intro fuel
  induction fuel with
  | zero =>
      intro bk h
      exact ⟨le_rfl, h⟩
  | succ fuel ih =>
      intro bk h
      unfold extRightF
      split
      · next hc =>
          have hrec := ih (bk + 1) (fun _ => ⟨by omega, by omega⟩)
          exact ⟨by omega, hrec.2⟩
      · exact ⟨le_rfl, h⟩

/-- The function `find_longest_match` returns a block inside the requested ranges. -/
theorem flm_bounds (a b : List Char) (alo ahi blo bhi : Nat) :
    alo ≤ (flm a b alo ahi blo bhi).1 ∧ blo ≤ (flm a b alo ahi blo bhi).2.1 ∧
    ((flm a b alo ahi blo bhi).2.2 ≠ 0 →
      (flm a b alo ahi blo bhi).1 + (flm a b alo ahi blo bhi).2.2 ≤ ahi ∧
      (flm a b alo ahi blo bhi).2.1 + (flm a b alo ahi blo bhi).2.2 ≤ bhi) := by
  obtain ⟨hJ1, hJ2, hBi, hBj, hZ, hNZ⟩ := dpRun_bounds a b alo ahi blo bhi
  unfold flm
  set st := dpRun a b alo ahi blo bhi with hst
  have hl := extLeft_spec a b alo blo st.bi st.bj st.bk hBi hBj
  set l := extLeft a b alo blo st.bi st.bj st.bk with hlv
  have hpre : l.2.2 ≠ 0 → l.1 + l.2.2 ≤ ahi ∧ l.2.1 + l.2.2 ≤ bhi := by
    intro hk
    by_cases hbk : st.bk = 0
    · obtain ⟨he1, he2⟩ := hZ hbk
      have hsum1 := hl.2.2.1
      have hsum2 := hl.2.2.2
      rw [hbk, he1] at hsum1
      have : l.2.2 = 0 := by omega
      exact absurd this hk
    · obtain ⟨hs1, hs2⟩ := hNZ hbk
      constructor
      · rw [hl.2.2.1]; exact hs1
      · rw [hl.2.2.2]; exact hs2
  have hr := extRightF_spec a b ahi bhi l.1 l.2.1 (ahi + 1) l.2.2 hpre
  exact ⟨hl.1, hl.2.1, hr.2⟩

/-- The total matched size never exceeds either range length. -/
theorem matchesTotalF_le (a b : List Char) :
    ∀ fuel alo ahi blo bhi,
      matchesTotalF a b fuel alo ahi blo bhi ≤ min (ahi - alo) (bhi - blo) := by
  intro fuel
  induction fuel with
  | zero =>
      intro alo ahi blo bhi
      simp [matchesTotalF]
  | succ fuel ih =>
      intro alo ahi blo bhi
      have hunf : matchesTotalF a b (fuel + 1) alo ahi blo bhi =
          (if (flm a b alo ahi blo bhi).2.2 = 0 then 0
           else
             ((flm a b alo ahi blo bhi).2.2 +
               if alo < (flm a b alo ahi blo bhi).1 ∧ blo < (flm a b alo ahi blo bhi).2.1 then
                 matchesTotalF a b fuel alo (flm a b alo ahi blo bhi).1 blo
                   (flm a b alo ahi blo bhi).2.1
               else 0) +
             if (flm a b alo ahi blo bhi).1 + (flm a b alo ahi blo bhi).2.2 < ahi ∧
                 (flm a b alo ahi blo bhi).2.1 + (flm a b alo ahi blo bhi).2.2 < bhi then
               matchesTotalF a b fuel
                 ((flm a b alo ahi blo bhi).1 + (flm a b alo ahi blo bhi).2.2) ahi
                 ((flm a b alo ahi blo bhi).2.1 + (flm a b alo ahi blo bhi).2.2) bhi
             else 0) := rfl
      rw [hunf]
      split
      · exact Nat.zero_le _
      · next hk =>
          obtain ⟨h1, h2, h3⟩ := flm_bounds a b alo ahi blo bhi
          obtain ⟨hs1, hs2⟩ := h3 hk
          refine Nat.le_min.mpr ⟨?_, ?_⟩
          · have hL : (if alo < (flm a b alo ahi blo bhi).1 ∧
                blo < (flm a b alo ahi blo bhi).2.1 then
                  matchesTotalF a b fuel alo (flm a b alo ahi blo bhi).1 blo
                    (flm a b alo ahi blo bhi).2.1
                else 0) ≤ (flm a b alo ahi blo bhi).1 - alo := by
              split
              · exact (ih _ _ _ _).trans (Nat.min_le_left _ _)
              · exact Nat.zero_le _
            have hR : (if (flm a b alo ahi blo bhi).1 + (flm a b alo ahi blo bhi).2.2 < ahi ∧
                (flm a b alo ahi blo bhi).2.1 + (flm a b alo ahi blo bhi).2.2 < bhi then
                  matchesTotalF a b fuel
                    ((flm a b alo ahi blo bhi).1 + (flm a b alo ahi blo bhi).2.2) ahi
                    ((flm a b alo ahi blo bhi).2.1 + (flm a b alo ahi blo bhi).2.2) bhi
                else 0) ≤ ahi - ((flm a b alo ahi blo bhi).1 + (flm a b alo ahi blo bhi).2.2) := by
              split
              · exact (ih _ _ _ _).trans (Nat.min_le_left _ _)
              · exact Nat.zero_le _
            omega
          · have hL : (if alo < (flm a b alo ahi blo bhi).1 ∧
                blo < (flm a b alo ahi blo bhi).2.1 then
                  matchesTotalF a b fuel alo (flm a b alo ahi blo bhi).1 blo
                    (flm a b alo ahi blo bhi).2.1
                else 0) ≤ (flm a b alo ahi blo bhi).2.1 - blo := by
              split
              · exact (ih _ _ _ _).trans (Nat.min_le_right _ _)
              · exact Nat.zero_le _
            have hR : (if (flm a b alo ahi blo bhi).1 + (flm a b alo ahi blo bhi).2.2 < ahi ∧
                (flm a b alo ahi blo bhi).2.1 + (flm a b alo ahi blo bhi).2.2 < bhi then
                  matchesTotalF a b fuel
                    ((flm a b alo ahi blo bhi).1 + (flm a b alo ahi blo bhi).2.2) ahi
                    ((flm a b alo ahi blo bhi).2.1 + (flm a b alo ahi blo bhi).2.2) bhi
                else 0) ≤ bhi - ((flm a b alo ahi blo bhi).2.1 + (flm a b alo ahi blo bhi).2.2) := by
              split
              · exact (ih _ _ _ _).trans (Nat.min_le_right _ _)
              · exact Nat.zero_le _
            omega

/-- C9: the fallback `_similar` cannot fail (it is a total function) and its
value always lies in the range `[0, 100]`. -/
theorem claim_C9_score_in_range (a b : List Char) :
    0 ≤ _similar a b ∧ _similar a b ≤ 100 := by
  refine ⟨Nat.zero_le _, ?_⟩
  unfold _similar
  split
  · exact le_rfl
  · next hT =>
      have hM := matchesTotalF_le a b (a.length + 1) 0 a.length 0 b.length
      have hMa : matchesTotalF a b (a.length + 1) 0 a.length 0 b.length ≤ a.length :=
        (hM.trans (Nat.min_le_left _ _)).trans (by omega)
      have hMb : matchesTotalF a b (a.length + 1) 0 a.length 0 b.length ≤ b.length :=
        (hM.trans (Nat.min_le_right _ _)).trans (by omega)
      have hmul : 200 * matchesTotalF a b (a.length + 1) 0 a.length 0 b.length ≤
          100 * (a.length + b.length) := by omega
      calc 200 * matchesTotalF a b (a.length + 1) 0 a.length 0 b.length /
            (a.length + b.length)
          ≤ 100 * (a.length + b.length) / (a.length + b.length) :=
            Nat.div_le_div_right hmul
        _ = 100 := Nat.mul_div_cancel 100 (by omega)

/-- Membership in the position lists underlying `b2j`. -/
theorem mem_positionsOf (b : List Char) (c : Char) (j : Nat) :
    j ∈ positionsOf b c ↔ j < b.length ∧ b.getD j ' ' = c := by
  unfold positionsOf
  rw [List.mem_filter, List.mem_range]
  simp only [decide_eq_true_eq]

/-- Membership in a purged `b2j` entry. -/
theorem mem_b2j (b : List Char) (c : Char) (j : Nat) :
    j ∈ b2j b c ↔ (j < b.length ∧ b.getD j ' ' = c ∧
      ¬(200 ≤ b.length ∧ b.length / 100 + 1 < (positionsOf b c).length)) := by
  show (j ∈ if 200 ≤ b.length ∧ b.length / 100 + 1 < (positionsOf b c).length then []
      else positionsOf b c) ↔ _
  split
  · next hp =>
      simp only [List.not_mem_nil, false_iff]
      rintro ⟨_, _, hno⟩
      exact hno hp
  · next hp =>
      rw [mem_positionsOf]
      constructor
      · rintro ⟨h1, h2⟩; exact ⟨h1, h2, hp⟩
      · rintro ⟨h1, h2, _⟩; exact ⟨h1, h2⟩

/-- Any position listed for the character at position `i` survives the purge
for its own character as well. -/
theorem keptAt_of_mem (a : List Char) (i j : Nat) (h : j ∈ b2j a (a.getD i ' ')) :
    keptAt a j := by
  have hm := (mem_b2j a (a.getD i ' ') j).mp h
  unfold keptAt
  rw [hm.2.1]
  exact h

/-- Positions listed in `b2j` lie inside the string. -/
theorem mem_b2j_lt (b : List Char) (c : Char) (j : Nat) (h : j ∈ b2j b c) :
    j < b.length := ((mem_b2j b c j).mp h).1

/-- Over the full ranges the candidate filter of the inner loop is the
identity. -/
theorem js_filter_eq (a : List Char) (i : Nat) :
    (b2j a (a.getD i ' ')).filter (fun j => decide (0 ≤ j) && decide (j < a.length)) =
      b2j a (a.getD i ' ') := by
  apply List.filter_eq_self.mpr
  intro j hj
  rw [Bool.and_eq_true, decide_eq_true_eq, decide_eq_true_eq]
  exact ⟨Nat.zero_le j, mem_b2j_lt a _ j hj⟩

/-- The position lists, hence the purged `b2j` entries, are strictly
ascending. -/
theorem b2j_sorted (b : List Char) (c : Char) : (b2j b c).Pairwise (· < ·) := by
  show List.Pairwise (· < ·)
    (if 200 ≤ b.length ∧ b.length / 100 + 1 < (positionsOf b c).length then []
      else positionsOf b c)
  split
  · exact List.Pairwise.nil
  · exact (List.pairwise_lt_range b.length).filter _

/-- Diagonal run at a kept initial position. -/
theorem DD_zero_kept (a : List Char) (h : keptAt a 0) : DD a 0 = 1 := by
  rw [show DD a 0 = if keptAt a 0 then 1 else 0 from rfl, if_pos h]

/-- Diagonal run at a kept successor position. -/
theorem DD_succ_kept (a : List Char) (x : Nat) (h : keptAt a (x + 1)) :
    DD a (x + 1) = DD a x + 1 := by
  rw [show DD a (x + 1) = if keptAt a (x + 1) then DD a x + 1 else 0 from rfl, if_pos h]

/-- The diagonal run at a kept position is nonzero. -/
theorem DD_pos (a : List Char) (x : Nat) (h : keptAt a x) : 1 ≤ DD a x := by
  cases x with
  | zero => rw [DD_zero_kept a h]
  | succ x => rw [DD_succ_kept a x h]; omega

/-- The diagonal run at a purged position is zero. -/
theorem DD_not_kept (a : List Char) (x : Nat) (h : ¬keptAt a x) : DD a x = 0 := by
  cases x with
  | zero => rw [show DD a 0 = if keptAt a 0 then 1 else 0 from rfl, if_neg h]
  | succ x =>
      rw [show DD a (x + 1) = if keptAt a (x + 1) then DD a x + 1 else 0 from rfl, if_neg h]

/-- Every diagonal run below the processed bound is dominated by the running
maximum. -/
theorem DD_le_MM (a : List Char) : ∀ c x, x < c → DD a x ≤ MM a c := by
  intro c
  induction c with
  | zero => intro x hx; omega
  | succ c ih =>
      intro x hx
      by_cases hxc : x = c
      · subst hxc
        exact le_max_right _ _ |>.trans_eq (by rfl)
      · exact ((ih x (by omega)).trans (le_max_left _ _)).trans_eq (by rfl)

/-- The dictionary written by one inner iteration. -/
theorem dpInner_j2len (st : DpSt) (i : Nat) (acc : DpSt) (j x : Nat) :
    (dpInner st i acc j).j2len x = if x = j then dpK st j else acc.j2len x := by
  unfold dpInner
  split <;> rfl

/-- The dictionary built by the inner fold: a candidate's entry holds its run
length `dpK`, everything else is whatever the accumulator held (the entry
value depends only on the previous iteration's dictionary `st`, never on the
accumulator, so later writes agree with earlier ones). -/
theorem innerFold_j2len (st : DpSt) (i : Nat) :
    ∀ (js : List Nat) (acc : DpSt) (x : Nat),
      (js.foldl (dpInner st i) acc).j2len x =
        if x ∈ js then dpK st x else acc.j2len x := by
  intro js
  induction js with
  | nil => intro acc x; simp
  | cons j js ih =>
      intro acc x
      rw [List.foldl_cons, ih]
      by_cases hx : x ∈ js
      · rw [if_pos hx, if_pos (List.mem_cons_of_mem _ hx)]
      · rw [if_neg hx, dpInner_j2len]
        by_cases hxj : x = j
        · subst hxj
          rw [if_pos rfl, if_pos (List.mem_cons_self _ _)]
        · rw [if_neg hxj, if_neg (by rw [List.mem_cons]; rintro (h | h) <;> [exact hxj h; exact hx h])]

/-- When no candidate's run beats the accumulated best, the inner fold leaves
the best fields untouched. -/
theorem innerFold_best_const (st : DpSt) (i : Nat) :
    ∀ (js : List Nat) (acc : DpSt), (∀ j ∈ js, dpK st j ≤ acc.bk) →
      ((js.foldl (dpInner st i) acc).bi = acc.bi ∧
       (js.foldl (dpInner st i) acc).bj = acc.bj ∧
       (js.foldl (dpInner st i) acc).bk = acc.bk) := by
  intro js
  induction js with
  | nil => intro acc _; exact ⟨rfl, rfl, rfl⟩
  | cons j js ih =>
      intro acc hle
      rw [List.foldl_cons]
      have hj := hle j (List.mem_cons_self _ _)
      have hacc' : dpInner st i acc j =
          ⟨fun x => if x = j then dpK st j else acc.j2len x, acc.bi, acc.bj, acc.bk⟩ := by
        unfold dpInner
        rw [if_neg (by omega)]
      rw [hacc']
      exact ih _ (fun j' hj' => hle j' (List.mem_cons_of_mem _ hj'))

/-- Unfolding equation for one inner iteration. -/
theorem dpInner_eq (st : DpSt) (i : Nat) (A : DpSt) (j : Nat) :
    dpInner st i A j =
      if A.bk < dpK st j then
        ⟨fun x => if x = j then dpK st j else A.j2len x,
          i + 1 - dpK st j, j + 1 - dpK st j, dpK st j⟩
      else ⟨fun x => if x = j then dpK st j else A.j2len x, A.bi, A.bj, A.bk⟩ := rfl

/-- Best-match evolution of one whole inner iteration when the candidate list
splits as `L ++ i :: R` with every `L`-run dominated by the incoming best and
every `R`-run dominated by the best after the diagonal candidate `i`: the
only possible update is the diagonal one. -/
theorem innerFold_best_split (st : DpSt) (i : Nat) (L R : List Nat) (acc : DpSt)
    (hL : ∀ j ∈ L, dpK st j ≤ acc.bk)
    (hR : ∀ j ∈ R, dpK st j ≤ max acc.bk (dpK st i)) :
    (((L ++ i :: R).foldl (dpInner st i) acc).bi =
        (if acc.bk < dpK st i then i + 1 - dpK st i else acc.bi) ∧
     ((L ++ i :: R).foldl (dpInner st i) acc).bj =
        (if acc.bk < dpK st i then i + 1 - dpK st i else acc.bj) ∧
     ((L ++ i :: R).foldl (dpInner st i) acc).bk =
        (if acc.bk < dpK st i then dpK st i else acc.bk)) := by
  rw [List.foldl_append]
  obtain ⟨hbi, hbj, hbk⟩ := innerFold_best_const st i L acc hL
  rw [List.foldl_cons]
  by_cases hup : acc.bk < dpK st i
  · have hstep : dpInner st i (L.foldl (dpInner st i) acc) i =
        ⟨fun x => if x = i then dpK st i else (L.foldl (dpInner st i) acc).j2len x,
          i + 1 - dpK st i, i + 1 - dpK st i, dpK st i⟩ := by
      rw [dpInner_eq, hbk, if_pos hup]
    rw [hstep]
    have hconst := innerFold_best_const st i R
      ⟨fun x => if x = i then dpK st i else (L.foldl (dpInner st i) acc).j2len x,
        i + 1 - dpK st i, i + 1 - dpK st i, dpK st i⟩
      (by
        intro j hj
        have hrj := hR j hj
        show dpK st j ≤ dpK st i
        omega)
    rw [if_pos hup, if_pos hup, if_pos hup]
    exact ⟨hconst.1, hconst.2.1, hconst.2.2⟩
  · have hstep : dpInner st i (L.foldl (dpInner st i) acc) i =
        ⟨fun x => if x = i then dpK st i else (L.foldl (dpInner st i) acc).j2len x,
          acc.bi, acc.bj, acc.bk⟩ := by
      rw [dpInner_eq, hbk, hbi, hbj, if_neg hup]
    rw [hstep]
    have hconst := innerFold_best_const st i R
      ⟨fun x => if x = i then dpK st i else (L.foldl (dpInner st i) acc).j2len x,
        acc.bi, acc.bj, acc.bk⟩
      (by
        intro j hj
        have hrj := hR j hj
        show dpK st j ≤ acc.bk
        omega)
    rw [if_neg hup, if_neg hup, if_neg hup]
    exact ⟨hconst.1, hconst.2.1, hconst.2.2⟩

/-- One outer iteration preserves the diagonal invariant when `a` is compared
against itself over the full ranges. -/
theorem dpStep_diag (a : List Char) (c : Nat) (st : DpSt) (hc : c < a.length)
    (hinv : DpDiagInv a c st) :
    DpDiagInv a (c + 1) (dpStep (b2j a) a 0 a.length st c) := by
  obtain ⟨hDiag, hMM, hI4, hI5, hI6, hI0⟩ := hinv
  unfold dpStep
  rw [js_filter_eq a c]
  by_cases hkept : keptAt a c
  · -- the diagonal candidate is present
    have hcmem : c ∈ b2j a (a.getD c ' ') := hkept
    obtain ⟨L, R, hsplit⟩ := List.append_of_mem hcmem
    have hsorted := b2j_sorted a (a.getD c ' ')
    rw [hsplit] at hsorted
    have hpw := List.pairwise_append.mp hsorted
    have hLlt : ∀ j ∈ L, j < c :=
      fun j hj => hpw.2.2 j hj c (List.mem_cons_self _ _)
    have hmemAll : ∀ x ∈ L ++ c :: R, keptAt a x :=
      fun x hx => keptAt_of_mem a c x (hsplit ▸ hx)
    have hdpKc : dpK st c = DD a c := by
      unfold dpK
      by_cases hc0 : c = 0
      · subst hc0
        rw [if_pos rfl, DD_zero_kept a hkept]
      · obtain ⟨c', rfl⟩ : ∃ c', c = c' + 1 := ⟨c - 1, by omega⟩
        rw [if_neg hc0, DD_succ_kept a c' hkept]
        have h5 := hI5 c' rfl
        simpa using h5
    have hdpK_DD : ∀ j, keptAt a j → dpK st j ≤ DD a j := by
      intro j hkj
      unfold dpK
      by_cases hj0 : j = 0
      · subst hj0
        rw [if_pos rfl, DD_zero_kept a hkj]
      · obtain ⟨j', rfl⟩ : ∃ j', j = j' + 1 := ⟨j - 1, by omega⟩
        rw [if_neg hj0, DD_succ_kept a j' hkj]
        have h4 := hI4 j'
        simpa using Nat.add_le_add_right h4 1
    have hdom : ∀ x, dpK st x ≤ DD a c := by
      intro x
      unfold dpK
      by_cases hx0 : x = 0
      · subst hx0
        rw [if_pos rfl]
        exact DD_pos a c hkept
      · obtain ⟨x', rfl⟩ : ∃ x', x = x' + 1 := ⟨x - 1, by omega⟩
        rw [if_neg hx0]
        simp only [Nat.add_sub_cancel]
        by_cases hc0 : c = 0
        · subst hc0
          rw [hI0 rfl x']
          have hp := DD_pos a 0 hkept
          omega
        · obtain ⟨c', rfl⟩ : ∃ c', c = c' + 1 := ⟨c - 1, by omega⟩
          have h6 := hI6 x' c' rfl
          have h5 := hI5 c' rfl
          have hDD := DD_succ_kept a c' hkept
          have hK : dpK st (c' + 1) = st.j2len c' + 1 := by
            unfold dpK
            rw [if_neg hc0]
            simp [Nat.add_sub_cancel]
          omega
    have hL_le : ∀ j ∈ L, dpK st j ≤
        (⟨fun _ => 0, st.bi, st.bj, st.bk⟩ : DpSt).bk := by
      intro j hj
      show dpK st j ≤ st.bk
      have hkj := hmemAll j (List.mem_append_left _ hj)
      exact ((hdpK_DD j hkj).trans (DD_le_MM a c j (hLlt j hj))).trans hMM
    have hR_le : ∀ j ∈ R, dpK st j ≤
        max (⟨fun _ => 0, st.bi, st.bj, st.bk⟩ : DpSt).bk (dpK st c) := by
      intro j _
      have hdj := hdom j
      rw [← hdpKc] at hdj
      exact hdj.trans (le_max_right _ _)
    rw [hsplit]
    have hbest := innerFold_best_split st c L R ⟨fun _ => 0, st.bi, st.bj, st.bk⟩ hL_le hR_le
    have hj2 := innerFold_j2len st c (L ++ c :: R) ⟨fun _ => 0, st.bi, st.bj, st.bk⟩
    set res := (L ++ c :: R).foldl (dpInner st c) ⟨fun _ => 0, st.bi, st.bj, st.bk⟩ with hres
    obtain ⟨hrbi, hrbj, hrbk⟩ := hbest
    refine ⟨?_, ?_, ?_, ?_, ?_, ?_⟩
    · rw [hrbi, hrbj]
      split
      · rfl
      · exact hDiag
    · show MM a (c + 1) ≤ res.bk
      have h1 : (⟨fun _ => 0, st.bi, st.bj, st.bk⟩ : DpSt).bk = st.bk := rfl
      rw [hrbk, h1]
      have hMMs : MM a (c + 1) = max (MM a c) (DD a c) := rfl
      rw [hMMs]
      refine Nat.max_le.mpr ⟨?_, ?_⟩
      · split
        · next hup => exact hMM.trans (Nat.le_of_lt hup)
        · exact hMM
      · split
        · rw [← hdpKc]
        · next hup =>
            rw [← hdpKc]
            omega
    · intro x
      rw [hj2 x]
      split
      · next hx =>
          exact hdpK_DD x (hmemAll x hx)
      · exact Nat.zero_le _
    · intro x hx
      have hxc : x = c := by omega
      subst hxc
      rw [hj2 x]
      rw [if_pos (List.mem_append_right _ (List.mem_cons_self _ _))]
      exact hdpKc
    · intro x y hy
      have hyc : y = c := by omega
      subst hyc
      rw [hj2 x, hj2 y]
      rw [if_pos (List.mem_append_right _ (List.mem_cons_self _ _))]
      split
      · next hx =>
          exact (hdom x).trans_eq hdpKc.symm
      · exact Nat.zero_le _
    · intro h0
      omega
  · -- the character at `c` was purged: no candidates at all
    have hjs : b2j a (a.getD c ' ') = [] := by
      rcases hemp : b2j a (a.getD c ' ') with _ | ⟨j, js'⟩
      · rfl
      · exfalso
        have hj : j ∈ b2j a (a.getD c ' ') := by
          rw [hemp]; exact List.mem_cons_self _ _
        have hm := (mem_b2j a _ j).mp hj
        have hcmem : c ∈ b2j a (a.getD c ' ') := by
          rw [mem_b2j]
          exact ⟨hc, rfl, hm.2.2⟩
        exact hkept hcmem
    rw [hjs]
    simp only [List.foldl_nil]
    have hDDc : DD a c = 0 := DD_not_kept a c hkept
    refine ⟨hDiag, ?_, ?_, ?_, ?_, ?_⟩
    · show MM a (c + 1) ≤ st.bk
      have hMMs : MM a (c + 1) = max (MM a c) (DD a c) := rfl
      rw [hMMs, hDDc]
      omega
    · intro x
      exact Nat.zero_le _
    · intro x hx
      have hxc : x = c := by omega
      subst hxc
      rw [hDDc]
    · intro x y _
      exact le_rfl
    · intro _ x
      rfl

/-- The whole dynamic-programming phase keeps the best match on the diagonal
when `a` is compared against itself. -/
theorem dpRun_diag (a : List Char) :
    ∀ c, c ≤ a.length →
      DpDiagInv a c
        ((List.range' 0 c).foldl (dpStep (b2j a) a 0 a.length) ⟨fun _ => 0, 0, 0, 0⟩) := by
  intro c
  induction c with
  | zero =>
      intro _
      exact ⟨rfl, Nat.le_refl 0, fun x => Nat.zero_le _, fun x hx => by omega,
        fun x y hy => le_rfl, fun _ x => rfl⟩
  | succ c ih =>
      intro hc
      have hr : List.range' 0 (c + 1) = List.range' 0 c ++ [c] := by
        have h := (List.range'_concat 0 c :
          List.range' 0 (c + 1) 1 = List.range' 0 c 1 ++ [0 + 1 * c])
        simpa using h
      rw [hr, List.foldl_append, List.foldl_cons, List.foldl_nil]
      exact dpStep_diag a c _ (by omega) (ih (by omega))

/-- The left extension loop on the diagonal runs all the way to the left
edge. -/
theorem extLeft_diag (a : List Char) :
    ∀ bi bk, bi ≤ a.length → extLeft a a 0 0 bi bi bk = (0, 0, bi + bk) := by
  intro bi
  induction bi with
  | zero =>
      intro bk _
      rw [Nat.zero_add]
      simp [extLeft]
  | succ bi ih =>
      intro bk hbi
      have hlt : bi < a.length := by omega
      have hsome : a.get? bi = some (a.get ⟨bi, hlt⟩) := List.get?_eq_get hlt
      unfold extLeft
      rw [if_pos ⟨by omega, by omega, by rw [hsome]; rfl, by simp⟩]
      have hrec := ih (bk + 1) (by omega)
      simp only [Nat.add_sub_cancel]
      rw [hrec]
      have : bi + (bk + 1) = bi + 1 + bk := by omega
      rw [this]

/-- The right extension loop on the diagonal runs all the way to the right
edge. -/
theorem extRightF_diag (a : List Char) :
    ∀ fuel k, k ≤ a.length → a.length ≤ k + fuel →
      extRightF a a a.length a.length 0 0 fuel k = a.length := by
  intro fuel
  induction fuel with
  | zero =>
      intro k h1 h2
      have : k = a.length := by omega
      simpa [extRightF] using this
  | succ fuel ih =>
      intro k h1 h2
      by_cases hk : k < a.length
      · have hsome : a.get? (0 + k) = some (a.get ⟨0 + k, by omega⟩) :=
          List.get?_eq_get (by omega)
        unfold extRightF
        rw [if_pos ⟨by omega, by omega, by rw [hsome]; rfl, rfl⟩]
        exact ih (k + 1) (by omega) (by omega)
      · have : k = a.length := by omega
        unfold extRightF
        rw [if_neg (by omega)]
        exact this

/-- On a self-comparison over the full ranges, `find_longest_match` returns
the whole string: whatever the dynamic-programming phase found is diagonal,
and the two extension loops (whose junk tests are vacuous) stretch it to both
edges. -/
theorem flm_diag (a : List Char) : flm a a 0 a.length 0 a.length = (0, 0, a.length) := by
  have hst2 : dpRun a a 0 a.length 0 a.length =
      (List.range' 0 a.length).foldl (dpStep (b2j a) a 0 a.length) ⟨fun _ => 0, 0, 0, 0⟩ := by
    unfold dpRun
    rw [Nat.sub_zero]
  have hdiag : (dpRun a a 0 a.length 0 a.length).bi = (dpRun a a 0 a.length 0 a.length).bj := by
    rw [hst2]
    exact (dpRun_diag a a.length le_rfl).1
  obtain ⟨hBi, hBj, hZ, hNZ⟩ :=
    (dpRun_bounds a a 0 a.length 0 a.length).2.2
  have hk_le : (dpRun a a 0 a.length 0 a.length).bi +
      (dpRun a a 0 a.length 0 a.length).bk ≤ a.length := by
    by_cases hbk : (dpRun a a 0 a.length 0 a.length).bk = 0
    · rw [hbk, (hZ hbk).1]
      exact Nat.zero_le _
    · exact (hNZ hbk).1
  have hbi_le : (dpRun a a 0 a.length 0 a.length).bi ≤ a.length := by omega
  have hflm : flm a a 0 a.length 0 a.length =
      ((extLeft a a 0 0 (dpRun a a 0 a.length 0 a.length).bi
          (dpRun a a 0 a.length 0 a.length).bj (dpRun a a 0 a.length 0 a.length).bk).1,
       (extLeft a a 0 0 (dpRun a a 0 a.length 0 a.length).bi
          (dpRun a a 0 a.length 0 a.length).bj (dpRun a a 0 a.length 0 a.length).bk).2.1,
       extRightF a a a.length a.length
         (extLeft a a 0 0 (dpRun a a 0 a.length 0 a.length).bi
            (dpRun a a 0 a.length 0 a.length).bj (dpRun a a 0 a.length 0 a.length).bk).1
         (extLeft a a 0 0 (dpRun a a 0 a.length 0 a.length).bi
            (dpRun a a 0 a.length 0 a.length).bj (dpRun a a 0 a.length 0 a.length).bk).2.1
         (a.length + 1)
         (extLeft a a 0 0 (dpRun a a 0 a.length 0 a.length).bi
            (dpRun a a 0 a.length 0 a.length).bj
            (dpRun a a 0 a.length 0 a.length).bk).2.2) := rfl
  rw [hflm]
  have hlext : extLeft a a 0 0 (dpRun a a 0 a.length 0 a.length).bi
      (dpRun a a 0 a.length 0 a.length).bj (dpRun a a 0 a.length 0 a.length).bk =
      (0, 0, (dpRun a a 0 a.length 0 a.length).bi + (dpRun a a 0 a.length 0 a.length).bk) := by
    rw [← hdiag]
    exact extLeft_diag a (dpRun a a 0 a.length 0 a.length).bi
      (dpRun a a 0 a.length 0 a.length).bk hbi_le
  rw [hlext]
  have hright := extRightF_diag a (a.length + 1)
    ((dpRun a a 0 a.length 0 a.length).bi + (dpRun a a 0 a.length 0 a.length).bk)
    hk_le (by omega)
  rw [show ((0 : Nat), (0 : Nat),
      (dpRun a a 0 a.length 0 a.length).bi + (dpRun a a 0 a.length 0 a.length).bk).2.2 =
      (dpRun a a 0 a.length 0 a.length).bi + (dpRun a a 0 a.length 0 a.length).bk from rfl]
  rw [hright]

/-- C4, amended: the fallback comparator gives every fingerprint similarity
100 with itself (`score(A, A) == 100` for every `A`), though it is not
symmetric in general (see the counterexample above). -/
theorem claim_C4_self_score_100 (A : List Char) : _similar A A = 100 := by
  unfold _similar
  by_cases hn : A.length + A.length = 0
  · rw [if_pos hn]
  · rw [if_neg hn]
    have hM : matchesTotalF A A (A.length + 1) 0 A.length 0 A.length = A.length := by
      have hunf : matchesTotalF A A (A.length + 1) 0 A.length 0 A.length =
          (if (flm A A 0 A.length 0 A.length).2.2 = 0 then 0
           else
             ((flm A A 0 A.length 0 A.length).2.2 +
               if 0 < (flm A A 0 A.length 0 A.length).1 ∧
                   0 < (flm A A 0 A.length 0 A.length).2.1 then
                 matchesTotalF A A A.length 0 (flm A A 0 A.length 0 A.length).1 0
                   (flm A A 0 A.length 0 A.length).2.1
               else 0) +
             if (flm A A 0 A.length 0 A.length).1 + (flm A A 0 A.length 0 A.length).2.2 <
                   A.length ∧
                 (flm A A 0 A.length 0 A.length).2.1 + (flm A A 0 A.length 0 A.length).2.2 <
                   A.length then
               matchesTotalF A A A.length
                 ((flm A A 0 A.length 0 A.length).1 + (flm A A 0 A.length 0 A.length).2.2)
                 A.length
                 ((flm A A 0 A.length 0 A.length).2.1 + (flm A A 0 A.length 0 A.length).2.2)
                 A.length
             else 0) := rfl
      rw [hunf, flm_diag]
      simp only []
      rw [if_neg (by omega : ¬(A.length = 0))]
      rw [if_neg (by omega : ¬((0 : Nat) < 0 ∧ (0 : Nat) < 0))]
      rw [if_neg (by omega : ¬(0 + A.length < A.length ∧ 0 + A.length < A.length))]
      omega
    rw [hM]
    have h2 : A.length + A.length = 2 * A.length := by omega
    rw [h2]
    have h3 : 200 * A.length = 100 * (2 * A.length) := by omega
    rw [h3]
    exact Nat.mul_div_cancel 100 (by omega)

/-- Sanity check of the substitution model on concrete strings (values
checked against CPython's `re.sub`). -/
theorem sanity_subBS :
    subBS ['a', '\\', 's', 's', 'b'] = ['a', ' ', 'b'] ∧
      subBS ['\\', '\\', 's'] = ['\\', ' '] ∧
      pyClean ['a', ' ', ' ', 'b'] = ['a', ' ', ' ', 'b'] ∧
      specNormalize ['a', ' ', ' ', 'b'] = ['a', ' ', 'b'] := by
  refine ⟨?_, ?_, ?_, ?_⟩ <;> decide

/-- Sanity check of the `FUNC_RE` model (values checked against CPython's
`re.finditer`): a real declaration does not match, the crafted backslash text
does. -/
theorem sanity_FUNC_RE :
    FUNC_RE_finditer (("fn foo() \x7b return 1; \x7d").toList) = [] ∧
      FUNC_RE_finditer ['f', 'n', '\\', 's', '\\', 'w', '\\', '\\', ' ', 'x', ' ', 'y', ' ',
        '\\', '\\', '\\', '{'] = [(0, 17, ['\\', 'w'])] := by
  refine ⟨?_, ?_⟩ <;> decide

/-- Sanity check of the similarity model on concrete pairs (values checked
against CPython's `difflib.SequenceMatcher` with `int(ratio() * 100)`). -/
theorem sanity_similar :
    _similar ['a', 'b'] ['b', 'a', 'c', 'b'] = 66 ∧
      _similar ['b', 'a', 'c', 'b'] ['a', 'b'] = 33 ∧
      _similar ['a', 'b', 'c'] ['a', 'b', 'c'] = 100 ∧
      _similar ['a', 'b'] ['c'] = 0 ∧
      _similar ['a', 'b', 'c', 'd'] ['b', 'c', 'd', 'a'] = 75 ∧
      _similar ['x'] [] = 0 ∧
      _similar [] [] = 100 := by
  refine ⟨?_, ?_, ?_, ?_, ?_, ?_, ?_⟩ <;> decide

/-- Sanity check of the aggregator model: identical fingerprints cluster,
disjoint ones do not. -/
theorem sanity_clusters :
    clustersOf [(("a", "f"), ['x']), (("b", "g"), ['x'])] = [("a::f", [("b", "g")])] ∧
      clustersOf [(("a", "f"), ['x']), (("b", "g"), ['y'])] = [] := by
  refine ⟨?_, ?_⟩ <;> decide
